import Mathlib

/-!
Verification of the `bsl::unordered_set` adapter
(`src/groups/bsl/bslstl/bslstl_unorderedset.h`) and the hash-table engine it
wraps, against the natural-language specification.

The adapter is a thin façade: every operation forwards to the underlying
`bslstl::HashTable` engine (`d_impl`), whose implementation is not part of
this repository's sources.  The engine operations (`find`,
`insertIfMissing`, `remove`, `rehashForNumBuckets`, `setMaxLoadFactor`,
table equality) are therefore modelled from the specification (spec §3,
§4.1); the adapter-level logic (`erase(key)`, `count`, the hinted `insert`,
the range `erase` loop, `operator==` forwarding) is translated from the
source file.

Modelling choices:
  * the engine state is the global doubly-linked element list (iteration
    order, head = `begin()`), the bucket count, and the maximum load
    factor; the per-bucket chains are determined by the bucket count and
    the hash functor, and the spec leaves the relative order inside a
    chain unspecified after a rehash, so chains are derived rather than
    stored;
  * the C++ `float` maximum load factor is modelled as a rational number
    (the spec only requires it to be positive and finite);
  * iterators are thin cursors over the global list; a (valid) iterator is
    modelled as `some x` for the element `x` it designates, `none` being
    the past-the-end iterator — node identity coincides with value
    identity on the duplicate-free tables the container maintains;
  * the canonical bucket-array size sequence (spec §4.1 leaves the exact
    sequence as an implementation choice, requiring only determinism) is
    taken to be all positive naturals, so the grown bucket count is the
    smallest count whose load factor does not exceed the maximum.
-/

namespace Bslstl

/-- Modelled from the spec: the hash table engine state (spec §3) of the
`bslstl::HashTable` that `unordered_set` wraps; the engine implementation is
not under the repository sources.  `elements` is the global linked list of
all elements in iteration order (head = `begin()`), `numBuckets` the size of
the bucket array (always at least 1), `maxLoadFactor` the stored maximum
load factor. -/
structure HashTable (K : Type) where
  elements      : List K
  numBuckets    : Nat
  maxLoadFactor : ℚ
deriving DecidableEq

variable {K : Type} [DecidableEq K]

/-- Number of elements currently in the table (`size()`). -/
def HashTable.size (t : HashTable K) : Nat :=
  t.elements.length

/-- Modelled from the spec: the bucket index of a key is its hash value
modulo the bucket count (spec §2, `bucketIndexForKey`). -/
def HashTable.bucketIndexForKey (hash : K → Nat) (t : HashTable K) (k : K) : Nat :=
  hash k % t.numBuckets

/-- Modelled from the spec: `find(key)` computes the key's bucket and scans
that bucket's chain with the equality functor, returning the first match or
none (spec §4.1).  The chain of a bucket holds exactly the elements whose
hash maps to it, so the scan is the global list restricted to the key's
bucket. -/
def HashTable.find (hash : K → Nat) (eq : K → K → Bool) (t : HashTable K)
    (k : K) : Option K :=
  t.elements.find? fun x =>
    (decide (hash x % t.numBuckets = hash k % t.numBuckets)) && eq k x

/-- Modelled from the spec: the grown bucket count is the smallest canonical
bucket-array size such that `needed` elements do not exceed
`count * maxLoadFactor` (spec §4.1 rehash growth policy). -/
def grownBucketCount (mlf : ℚ) (needed : Nat) : Nat :=
  max 1 (Nat.ceil ((needed : ℚ) / mlf))

/-- Modelled from the spec: `insertIfMissing(value)` scans the value's
bucket chain for an equal key; if found it returns the existing element and
`false` with no mutation; otherwise it grows the bucket array first when the
incremented size would exceed `bucketCount * maxLoadFactor`, then links the
new element at the tail of the global list and returns it with `true`
(spec §4.1). -/
def HashTable.insertIfMissing (hash : K → Nat) (eq : K → K → Bool)
    (t : HashTable K) (v : K) : HashTable K × K × Bool :=
  match t.find hash eq v with
  | some x => (t, x, false)
  | none =>
      let t1 := if ((t.size : ℚ) + 1) > (t.numBuckets : ℚ) * t.maxLoadFactor
                then { t with numBuckets := grownBucketCount t.maxLoadFactor (t.size + 1) }
                else t
      ({ t1 with elements := t1.elements ++ [v] }, v, true)

/-- Successor of an element in the global list: the element immediately
following `x` in iteration order, or none when `x` is last (or absent). -/
def succOf (l : List K) (x : K) : Option K :=
  ((l.dropWhile fun y => decide (y ≠ x)).tail).head?

/-- Modelled from the spec: `remove(node)` unlinks the node from its bucket
chain and from the global list, destroys it, and returns the successor in
global order so the adapter can produce the next iterator (spec §4.1). -/
def HashTable.remove (t : HashTable K) (x : K) : HashTable K × Option K :=
  ({ t with elements := t.elements.erase x }, succOf t.elements x)

/-- Modelled from the spec: `rehashForNumBuckets(n)` is a no-op when `n`
would make `size / n` exceed the maximum load factor — stated
division-free as `size > n * maxLoadFactor`, which agrees with the
quotient form for every `n >= 1` and, at `n = 0`, makes the call a no-op
on every nonempty table (no bucket count this small can satisfy the load
factor, and the documented policy is never to rehash below what the load
factor allows).  Otherwise it installs a bucket array of (canonical) size
`n`, re-chaining every node while leaving the global list order untouched
(spec §4.1). -/
def HashTable.rehashForNumBuckets (t : HashTable K) (n : Nat) : HashTable K :=
  if (t.size : ℚ) > (n : ℚ) * t.maxLoadFactor then t
  else { t with numBuckets := max 1 n }

/-- Modelled from the spec: `setMaxLoadFactor(f)` stores the (positive,
finite) factor `f` and, when the table became overfull, immediately grows
the bucket array to restore `size <= bucketCount * maxLoadFactor`
(spec §4.1). -/
def HashTable.setMaxLoadFactor (t : HashTable K) (f : ℚ) : HashTable K :=
  let t1 : HashTable K := { t with maxLoadFactor := f }
  if (t1.size : ℚ) > (t1.numBuckets : ℚ) * f
  then { t1 with numBuckets := grownBucketCount f t1.size }
  else t1

/-- Modelled from the spec: two tables are equal iff they have the same size
and every element of the left table has an equal element (by the equality
functor) in the right table (spec §4.1, unique-key case).  `operator==` on
`unordered_set` forwards to this engine comparison (source lines
1546-1553). -/
def tableEq (eq : K → K → Bool) (a b : HashTable K) : Bool :=
  (a.size == b.size) && a.elements.all fun x => b.elements.any fun y => eq x y

/-- An empty `unordered_set`: the constructors pass an initial bucket-count
hint and a maximum load factor of 1.0 to the engine (source lines
1070-1096); the engine keeps the bucket count at least 1 (spec §3). -/
def emptySet (m : Nat) : HashTable K :=
  { elements := [], numBuckets := max 1 m, maxLoadFactor := 1 }

/-- `insert(value)` of the adapter: forwards to `insertIfMissing` and
returns the pair (iterator to the element, inserted flag) (source lines
1255-1267). -/
def HashTable.insertPair (hash : K → Nat) (eq : K → K → Bool)
    (t : HashTable K) (v : K) : HashTable K × Option K × Bool :=
  let r := t.insertIfMissing hash eq v
  (r.1, some r.2.1, r.2.2)

/-- `insert(hint, value)` of the adapter: the hint argument is ignored and
the call returns `this->insert(value).first` (source lines 1269-1284). -/
def HashTable.insertWithHint (hash : K → Nat) (eq : K → K → Bool)
    (t : HashTable K) (hint : Option K) (v : K) : HashTable K × Option K :=
  let r := t.insertPair hash eq v
  (r.1, r.2.1)

/-- `erase(key)` of the adapter: if `find` locates a node, remove it and
return 1, otherwise return 0 with no other effect (source lines
1206-1218). -/
def HashTable.eraseKey (hash : K → Nat) (eq : K → K → Bool)
    (t : HashTable K) (k : K) : HashTable K × Nat :=
  match t.find hash eq k with
  | some x => ((t.remove x).1, 1)
  | none => (t, 0)

/-- `count(key)` of the adapter: 1 when `find` succeeds, 0 otherwise
(source lines 1408-1414). -/
def HashTable.countKey (hash : K → Nat) (eq : K → K → Bool)
    (t : HashTable K) (k : K) : Nat :=
  match t.find hash eq k with
  | some _ => 1
  | none => 0

/-- Repeated insertion (`insert(first, last)` and table construction insert
each value in turn through `insertIfMissing`, source lines 1286-1303). -/
def HashTable.insertAll (hash : K → Nat) (eq : K → K → Bool)
    (t : HashTable K) (vs : List K) : HashTable K :=
  vs.foldl (fun s v => (s.insertIfMissing hash eq v).1) t

/-- The loop of `erase(first, last)` (source lines 1220-1245): while the
first iterator differs from the last, erase at the first iterator, which
yields the iterator to the next element.  The loop is fueled to make it
structurally terminating; the source documents as a precondition that both
iterators lie in the container with `first` at or before `last`, and under
that precondition the fuel (one more than the table size) is never
exhausted. -/
def HashTable.eraseRangeAux (last : Option K) :
    Nat → HashTable K → Option K → HashTable K × Option K
  | 0, t, first => (t, first)
  | fuel + 1, t, first =>
      if first = last then (t, first)
      else
        match first with
        | none => (t, none)
        | some x =>
            let r := t.remove x
            HashTable.eraseRangeAux last fuel r.1 r.2

/-- `erase(first, last)` of the adapter (source lines 1220-1245): run the
erase loop and return the final table together with the returned
iterator. -/
def HashTable.eraseRange (t : HashTable K) (first last : Option K) :
    HashTable K × Option K :=
  HashTable.eraseRangeAux last (t.size + 1) t first

/-- Uniqueness invariant: no two (distinct positions of) elements are
related by the equality functor — at most one element per distinct key. -/
def uniqPerKey (eq : K → K → Bool) (l : List K) : Prop :=
  l.Pairwise fun a b => eq a b = false

instance uniqPerKeyDecidable (eq : K → K → Bool) (l : List K) :
    Decidable (uniqPerKey eq l) :=
  inferInstanceAs (Decidable (l.Pairwise _))

/-- Concrete hash functor on naturals used by the evaluation witnesses. -/
def hashN : Nat → Nat := fun n => n

/-- Concrete equality functor on naturals used by the evaluation
witnesses. -/
def eqN : Nat → Nat → Bool := fun a b => a == b

/-- A concrete sample table used by the evaluation witnesses. -/
def sampleT : HashTable Nat :=
  { elements := [1, 2, 3], numBuckets := 4, maxLoadFactor := 1 }

/-- A concrete four-element table used by the evaluation witnesses. -/
def sampleT4 : HashTable Nat :=
  { elements := [1, 2, 3, 4], numBuckets := 4, maxLoadFactor := 1 }

-- ===========================================================================
-- Helper lemmas
-- ===========================================================================

theorem eqN_refl : ∀ a : Nat, eqN a a = true := by
  intro a; simp [eqN]

theorem eqN_symm : ∀ a b : Nat, eqN a b = true → eqN b a = true := by
  intro a b h; simp [eqN] at h ⊢; omega

theorem eqN_trans : ∀ a b c : Nat, eqN a b = true → eqN b c = true → eqN a c = true := by
  intro a b c h1 h2; simp [eqN] at h1 h2 ⊢; omega

theorem eqN_hash_congr : ∀ a b : Nat, eqN a b = true → hashN a = hashN b := by
  intro a b h; simp [eqN, hashN] at h ⊢; omega

theorem grownBucketCount_spec (mlf : ℚ) (needed : Nat) (h : 0 < mlf) :
    (needed : ℚ) ≤ (grownBucketCount mlf needed : ℚ) * mlf := by
  have h1 : ((needed : ℚ) / mlf) ≤ (Nat.ceil ((needed : ℚ) / mlf) : ℚ) := Nat.le_ceil _
  have h2 : (Nat.ceil ((needed : ℚ) / mlf) : ℚ) ≤ (grownBucketCount mlf needed : ℚ) := by
    have hx : Nat.ceil ((needed : ℚ) / mlf) ≤ grownBucketCount mlf needed :=
      le_max_right _ _
    exact_mod_cast hx
  have h3 : ((needed : ℚ) / mlf) * mlf ≤ (grownBucketCount mlf needed : ℚ) * mlf :=
    mul_le_mul_of_nonneg_right (h1.trans h2) (le_of_lt h)
  rwa [div_mul_cancel₀ _ (ne_of_gt h)] at h3

-- ===========================================================================
-- Claim theorems
-- ===========================================================================

/-- Claim C2: immediately after any `insert` call returns,
`size() <= bucket_count() * max_load_factor()` holds; the insert grows the
bucket array if the bound would otherwise be violated.  The stored maximum
load factor is positive (a documented precondition), and the pre-state
satisfies the invariant (it is restored after every mutation, so every
reachable table satisfies it). -/
theorem claim_C2_load_factor_invariant (hash : K → Nat) (eq : K → K → Bool)
    (t : HashTable K) (v : K) (hmlf : 0 < t.maxLoadFactor)
    (hpre : (t.size : ℚ) ≤ (t.numBuckets : ℚ) * t.maxLoadFactor) :
    (((t.insertIfMissing hash eq v).1.size : ℚ))
      ≤ ((t.insertIfMissing hash eq v).1.numBuckets : ℚ)
          * (t.insertIfMissing hash eq v).1.maxLoadFactor := by
  unfold HashTable.insertIfMissing
  cases hf : t.find hash eq v with
  | some x => simpa using hpre
  | none =>
      simp only
      by_cases hc : ((t.size : ℚ) + 1) > (t.numBuckets : ℚ) * t.maxLoadFactor
      · rw [if_pos hc]
        have hg := grownBucketCount_spec t.maxLoadFactor (t.size + 1) hmlf
        simpa [HashTable.size] using hg
      · rw [if_neg hc]
        push_neg at hc
        simpa [HashTable.size] using hc

theorem claim_C2_witness :
    0 < sampleT.maxLoadFactor ∧
    (sampleT.size : ℚ) ≤ (sampleT.numBuckets : ℚ) * sampleT.maxLoadFactor ∧
    (((sampleT.insertIfMissing hashN eqN 7).1.size : ℚ))
      ≤ ((sampleT.insertIfMissing hashN eqN 7).1.numBuckets : ℚ)
          * (sampleT.insertIfMissing hashN eqN 7).1.maxLoadFactor :=
  ⟨by decide, by norm_num [sampleT, HashTable.size],
   claim_C2_load_factor_invariant hashN eqN sampleT 7 (by decide)
     (by norm_num [sampleT, HashTable.size])⟩

/-- Claim C4: `erase(key)` returns either 0 or 1; it returns 1 and removes
exactly the element found for that key when one exists, and returns 0 with
the table (elements, bucket count, maximum load factor) completely
unchanged when no element has that key. -/
theorem claim_C4_erase_key_count (hash : K → Nat) (eq : K → K → Bool)
    (t : HashTable K) (k : K) :
    (t.eraseKey hash eq k).2 ≤ 1 ∧
    (t.eraseKey hash eq k).2 = (if (t.find hash eq k).isSome then 1 else 0) ∧
    (t.eraseKey hash eq k).1.elements =
      (match t.find hash eq k with
       | some x => t.elements.erase x
       | none => t.elements) ∧
    (t.eraseKey hash eq k).1.numBuckets = t.numBuckets ∧
    (t.eraseKey hash eq k).1.maxLoadFactor = t.maxLoadFactor := by
  unfold HashTable.eraseKey HashTable.remove
  cases t.find hash eq k <;> simp

/-- Claim C5: `rehash(n)` never touches the element list (membership and
global iteration order are preserved); when `n` would make the load
factor exceed the maximum — `size > n * maxLoadFactor`, the
division-free form of `size / n > maxLoadFactor`, which also covers
`n = 0` on a nonempty table — it is a complete no-op, and otherwise it
installs a bucket array of (canonical) size `n` leaving everything else
unchanged. -/
theorem claim_C5_rehash_preserves_elements (t : HashTable K) (n : Nat) :
    (t.rehashForNumBuckets n).elements = t.elements ∧
    (t.rehashForNumBuckets n).maxLoadFactor = t.maxLoadFactor ∧
    t.rehashForNumBuckets n =
      (if (n : ℚ) * t.maxLoadFactor < (t.size : ℚ) then t
       else { t with numBuckets := max 1 n }) := by
  unfold HashTable.rehashForNumBuckets
  by_cases h : (t.size : ℚ) > (n : ℚ) * t.maxLoadFactor
  · simp [if_pos h]
  · simp [if_neg h]

/-- Claim C6: after `max_load_factor(f)` returns (for positive, finite `f`),
the new factor is stored (`max_load_factor() == f`) and honored
(`size() <= bucket_count() * f`), the call growing the bucket array when
storing `f` made the table overfull. -/
theorem claim_C6_set_max_load_factor (t : HashTable K) (f : ℚ) (hf : 0 < f) :
    (t.setMaxLoadFactor f).maxLoadFactor = f ∧
    ((t.setMaxLoadFactor f).size : ℚ) ≤ ((t.setMaxLoadFactor f).numBuckets : ℚ) * f := by
  unfold HashTable.setMaxLoadFactor
  simp only [HashTable.size]
  split
  · refine ⟨rfl, ?_⟩
    have hg := grownBucketCount_spec f t.elements.length hf
    simpa [HashTable.size] using hg
  · next h =>
      push_neg at h
      exact ⟨rfl, by simpa [HashTable.size] using h⟩

theorem claim_C6_witness :
    0 < (3 : ℚ) / 10 ∧
    (sampleT.setMaxLoadFactor ((3 : ℚ) / 10)).maxLoadFactor = (3 : ℚ) / 10 ∧
    ((sampleT.setMaxLoadFactor ((3 : ℚ) / 10)).size : ℚ)
      ≤ ((sampleT.setMaxLoadFactor ((3 : ℚ) / 10)).numBuckets : ℚ) * ((3 : ℚ) / 10) :=
  ⟨by norm_num,
   (claim_C6_set_max_load_factor sampleT ((3 : ℚ) / 10) (by norm_num)).1,
   (claim_C6_set_max_load_factor sampleT ((3 : ℚ) / 10) (by norm_num)).2⟩

theorem find_eq_some_spec (hash : K → Nat) (eq : K → K → Bool) {t : HashTable K}
    {k x : K} (h : t.find hash eq k = some x) :
    x ∈ t.elements ∧ eq k x = true := by
  refine ⟨List.mem_of_find?_eq_some h, ?_⟩
  have hp := List.find?_some h
  simp only [Bool.and_eq_true] at hp
  exact hp.2

theorem find_eq_none_iff (hash : K → Nat) (eq : K → K → Bool)
    (hcong : ∀ a b, eq a b = true → hash a = hash b) (t : HashTable K) (k : K) :
    t.find hash eq k = none ↔ ∀ x ∈ t.elements, eq k x = false := by
  unfold HashTable.find
  rw [List.find?_eq_none]
  constructor
  · intro h x hx
    by_contra hne
    have hkx : eq k x = true := by simpa using hne
    have hh : hash k = hash x := hcong k x hkx
    have hp := h x hx
    simp [hh, hkx] at hp
  · intro h x hx
    simp [h x hx]

theorem insertIfMissing_of_found (hash : K → Nat) (eq : K → K → Bool)
    {t : HashTable K} {v x : K} (h : t.find hash eq v = some x) :
    t.insertIfMissing hash eq v = (t, x, false) := by
  unfold HashTable.insertIfMissing
  rw [h]

theorem insertIfMissing_of_not_found (hash : K → Nat) (eq : K → K → Bool)
    {t : HashTable K} {v : K} (h : t.find hash eq v = none) :
    (t.insertIfMissing hash eq v).1.elements = t.elements ++ [v] ∧
    (t.insertIfMissing hash eq v).1.maxLoadFactor = t.maxLoadFactor ∧
    (t.insertIfMissing hash eq v).2 = (v, true) := by
  unfold HashTable.insertIfMissing
  rw [h]
  by_cases hc : ((t.size : ℚ) + 1) > (t.numBuckets : ℚ) * t.maxLoadFactor
  · simp [hc]
  · simp [hc]

theorem insertIfMissing_elements (hash : K → Nat) (eq : K → K → Bool)
    (t : HashTable K) (v : K) :
    (t.insertIfMissing hash eq v).1.elements = t.elements ∨
    (t.insertIfMissing hash eq v).1.elements = t.elements ++ [v] := by
  cases hf : t.find hash eq v with
  | some x =>
      rw [insertIfMissing_of_found hash eq hf]
      exact Or.inl rfl
  | none =>
      exact Or.inr (insertIfMissing_of_not_found hash eq hf).1

theorem insertAll_cons (hash : K → Nat) (eq : K → K → Bool)
    (t : HashTable K) (v : K) (vs : List K) :
    t.insertAll hash eq (v :: vs)
      = ((t.insertIfMissing hash eq v).1).insertAll hash eq vs := rfl

theorem mem_insertIfMissing_of_mem (hash : K → Nat) (eq : K → K → Bool)
    {t : HashTable K} {x : K} (hx : x ∈ t.elements) (v : K) :
    x ∈ (t.insertIfMissing hash eq v).1.elements := by
  rcases insertIfMissing_elements hash eq t v with h | h <;> rw [h] <;> simp [hx]

theorem mem_insertAll_of_mem (hash : K → Nat) (eq : K → K → Bool)
    {t : HashTable K} {x : K} (vs : List K) (hx : x ∈ t.elements) :
    x ∈ (t.insertAll hash eq vs).elements := by
  induction vs generalizing t with
  | nil => exact hx
  | cons v ws ih =>
      rw [insertAll_cons]
      exact ih (mem_insertIfMissing_of_mem hash eq hx v)

theorem insertAll_elements_subset (hash : K → Nat) (eq : K → K → Bool)
    {t : HashTable K} (vs : List K) :
    ∀ x ∈ (t.insertAll hash eq vs).elements, x ∈ t.elements ∨ x ∈ vs := by
  induction vs generalizing t with
  | nil => exact fun x hx => Or.inl hx
  | cons v ws ih =>
      intro x hx
      rw [insertAll_cons] at hx
      rcases ih x hx with hx2 | hx2
      · rcases insertIfMissing_elements hash eq t v with h | h
        · rw [h] at hx2
          exact Or.inl hx2
        · rw [h] at hx2
          rcases List.mem_append.mp hx2 with h1 | h1
          · exact Or.inl h1
          · simp only [List.mem_singleton] at h1
            subst h1
            exact Or.inr (List.mem_cons_self _ _)
      · exact Or.inr (List.mem_cons_of_mem _ hx2)

theorem exists_match_insertAll (hash : K → Nat) (eq : K → K → Bool)
    (hrefl : ∀ a, eq a a = true) {t : HashTable K} (vs : List K) (v : K)
    (hv : v ∈ vs) :
    ∃ y ∈ (t.insertAll hash eq vs).elements, eq v y = true := by
  induction vs generalizing t with
  | nil => cases hv
  | cons w ws ih =>
      rw [insertAll_cons]
      rcases List.mem_cons.mp hv with rfl | hv2
      · cases hf : t.find hash eq v with
        | some x =>
            have hx := find_eq_some_spec hash eq hf
            refine ⟨x, mem_insertAll_of_mem hash eq ws ?_, hx.2⟩
            rw [insertIfMissing_of_found hash eq hf]
            exact hx.1
        | none =>
            refine ⟨v, mem_insertAll_of_mem hash eq ws ?_, hrefl v⟩
            rw [(insertIfMissing_of_not_found hash eq hf).1]
            simp
      · exact ih hv2

theorem symm_not_eq (eq : K → K → Bool)
    (hsymm : ∀ a b, eq a b = true → eq b a = true) :
    Symmetric fun a b : K => eq a b = false := by
  intro a b hab
  by_contra h2
  have hba : eq b a = true := by simpa using h2
  have := hsymm b a hba
  rw [hab] at this
  cases this

theorem uniq_insertIfMissing (hash : K → Nat) (eq : K → K → Bool)
    (hsymm : ∀ a b, eq a b = true → eq b a = true)
    (hcong : ∀ a b, eq a b = true → hash a = hash b)
    {t : HashTable K} (hu : uniqPerKey eq t.elements) (v : K) :
    uniqPerKey eq (t.insertIfMissing hash eq v).1.elements := by
  cases hf : t.find hash eq v with
  | some x =>
      rw [insertIfMissing_of_found hash eq hf]
      exact hu
  | none =>
      have hnone := (find_eq_none_iff hash eq hcong t v).1 hf
      rw [(insertIfMissing_of_not_found hash eq hf).1]
      unfold uniqPerKey at hu ⊢
      rw [List.pairwise_append]
      refine ⟨hu, List.pairwise_singleton _ _, ?_⟩
      intro a ha b hb
      simp only [List.mem_singleton] at hb
      subst hb
      by_contra hne
      have hav : eq a b = true := by simpa using hne
      have hva : eq b a = true := hsymm _ _ hav
      rw [hnone a ha] at hva
      cases hva

theorem uniq_insertAll (hash : K → Nat) (eq : K → K → Bool)
    (hsymm : ∀ a b, eq a b = true → eq b a = true)
    (hcong : ∀ a b, eq a b = true → hash a = hash b)
    {t : HashTable K} (hu : uniqPerKey eq t.elements) (vs : List K) :
    uniqPerKey eq (t.insertAll hash eq vs).elements := by
  induction vs generalizing t with
  | nil => exact hu
  | cons v ws ih =>
      rw [insertAll_cons]
      exact ih (uniq_insertIfMissing hash eq hsymm hcong hu v)

theorem nodup_of_uniq (eq : K → K → Bool) (hrefl : ∀ a, eq a a = true)
    {l : List K} (hu : uniqPerKey eq l) : l.Nodup := by
  unfold uniqPerKey at hu
  refine hu.imp ?_
  intro a b hab hEq
  subst hEq
  rw [hrefl a] at hab
  cases hab

theorem insertAll_of_uniq (hash : K → Nat) (eq : K → K → Bool)
    (hsymm : ∀ a b, eq a b = true → eq b a = true) :
    ∀ (rest : List K) (t : HashTable K), uniqPerKey eq (t.elements ++ rest) →
      (t.insertAll hash eq rest).elements = t.elements ++ rest := by
  intro rest
  induction rest with
  | nil =>
      intro t h
      simp [HashTable.insertAll]
  | cons v ws ih =>
      intro t h
      rw [insertAll_cons]
      have hfind : t.find hash eq v = none := by
        unfold HashTable.find
        rw [List.find?_eq_none]
        intro y hy
        have hyv : eq y v = false := by
          unfold uniqPerKey at h
          rw [List.pairwise_append] at h
          exact h.2.2 y hy v (List.mem_cons_self _ _)
        have hvy : eq v y = false := by
          by_contra h2
          have h3 : eq v y = true := by simpa using h2
          have h4 := hsymm _ _ h3
          rw [hyv] at h4
          cases h4
        simp [hvy]
      have he := (insertIfMissing_of_not_found hash eq hfind).1
      have hu2 : uniqPerKey eq ((t.insertIfMissing hash eq v).1.elements ++ ws) := by
        rw [he, List.append_assoc]
        exact h
      rw [ih _ hu2, he, List.append_assoc]
      rfl

/-- Claim C1: for every sequence of `insert` calls starting from an empty
set, the resulting set contains at most one element per distinct key (no
two elements are related by the equality functor); and inserting a value
whose key is already present — witnessed by `find` locating element `x` —
leaves the table (hence `size()`) and the existing element unchanged and
returns the pair (existing element, `false`).  The equality functor is
symmetric and hash-consistent (the documented functor contract). -/
theorem claim_C1_uniqueness (hash : K → Nat) (eq : K → K → Bool)
    (hsymm : ∀ a b, eq a b = true → eq b a = true)
    (hcong : ∀ a b, eq a b = true → hash a = hash b)
    (m : Nat) (vs : List K) (t : HashTable K) (v x : K)
    (hfound : t.find hash eq v = some x) :
    uniqPerKey eq ((emptySet m : HashTable K).insertAll hash eq vs).elements ∧
    x ∈ t.elements ∧ eq v x = true ∧
    t.insertIfMissing hash eq v = (t, x, false) := by
  refine ⟨?_, (find_eq_some_spec hash eq hfound).1, (find_eq_some_spec hash eq hfound).2,
    insertIfMissing_of_found hash eq hfound⟩
  exact uniq_insertAll hash eq hsymm hcong (by simp [emptySet, uniqPerKey]) vs

theorem claim_C1_witness :
    sampleT.find hashN eqN 2 = some 2 ∧
    (uniqPerKey eqN ((emptySet 4 : HashTable Nat).insertAll hashN eqN [1, 2, 3, 2]).elements ∧
     2 ∈ sampleT.elements ∧ eqN 2 2 = true ∧
     sampleT.insertIfMissing hashN eqN 2 = (sampleT, 2, false)) :=
  ⟨by decide,
   claim_C1_uniqueness hashN eqN eqN_symm eqN_hash_congr 4 [1, 2, 3, 2] sampleT 2 2
     (by decide)⟩

/-- Claim C3: after `erase(k)` on a table whose elements are pairwise
distinct per the equality functor (the container's maintained invariant),
`find(k)` is the end iterator (`none`) and `count(k)` is 0.  The equality
functor is an equivalence (the documented functor contract). -/
theorem claim_C3_erase_find_consistency (hash : K → Nat) (eq : K → K → Bool)
    (hrefl : ∀ a, eq a a = true)
    (hsymm : ∀ a b, eq a b = true → eq b a = true)
    (htrans : ∀ a b c, eq a b = true → eq b c = true → eq a c = true)
    (t : HashTable K) (k : K) (hu : uniqPerKey eq t.elements) :
    (t.eraseKey hash eq k).1.find hash eq k = none ∧
    (t.eraseKey hash eq k).1.countKey hash eq k = 0 := by
  have hnd : t.elements.Nodup := nodup_of_uniq eq hrefl hu
  cases hf : t.find hash eq k with
  | none =>
      unfold HashTable.eraseKey
      rw [hf]
      exact ⟨hf, by unfold HashTable.countKey; rw [hf]⟩
  | some x =>
      have hx := find_eq_some_spec hash eq hf
      unfold HashTable.eraseKey
      rw [hf]
      have hfind : (({ t with elements := t.elements.erase x } : HashTable K)).find hash eq k
          = none := by
        unfold HashTable.find
        rw [List.find?_eq_none]
        intro y hy
        simp only at hy
        have hyel : y ∈ t.elements := List.mem_of_mem_erase hy
        have hyne : y ≠ x := (hnd.mem_erase_iff.1 hy).1
        suffices hky : eq k y = false by simp [hky]
        by_contra h2
        have hky : eq k y = true := by simpa using h2
        have hxk : eq x k = true := hsymm _ _ hx.2
        have hxy : eq x y = true := htrans _ _ _ hxk hky
        have hfa := (List.Pairwise.forall (symm_not_eq eq hsymm) hu) hx.1 hyel hyne.symm
        rw [hfa] at hxy
        cases hxy
      constructor
      · exact hfind
      · unfold HashTable.countKey
        unfold HashTable.remove
        simp only
        rw [hfind]

theorem claim_C3_witness :
    uniqPerKey eqN sampleT.elements ∧
    ((sampleT.eraseKey hashN eqN 2).1.find hashN eqN 2 = none ∧
     (sampleT.eraseKey hashN eqN 2).1.countKey hashN eqN 2 = 0) :=
  ⟨by decide,
   claim_C3_erase_find_consistency hashN eqN eqN_refl eqN_symm eqN_trans sampleT 2
     (by decide)⟩

/-- Claim C7: round trip — inserting every element of a table `A` (in `A`'s
iteration order) into an initially empty set built with the same hash and
equality functors reproduces `A`'s element sequence exactly, and the result
compares equal to `A` under the engine's `operator==`.  `A` satisfies the
container's pairwise-uniqueness invariant, and the equality functor is
reflexive and symmetric (the documented functor contract). -/
theorem claim_C7_round_trip (hash : K → Nat) (eq : K → K → Bool)
    (hrefl : ∀ a, eq a a = true)
    (hsymm : ∀ a b, eq a b = true → eq b a = true)
    (m : Nat) (A : HashTable K) (hu : uniqPerKey eq A.elements) :
    ((emptySet m : HashTable K).insertAll hash eq A.elements).elements = A.elements ∧
    tableEq eq ((emptySet m : HashTable K).insertAll hash eq A.elements) A = true := by
  have h1 := insertAll_of_uniq hash eq hsymm A.elements (emptySet m)
    (by simpa [emptySet] using hu)
  have h2 : ((emptySet m : HashTable K).insertAll hash eq A.elements).elements
      = A.elements := by simpa [emptySet] using h1
  refine ⟨h2, ?_⟩
  unfold tableEq
  simp only [HashTable.size, Bool.and_eq_true, beq_iff_eq, List.all_eq_true,
    List.any_eq_true, h2, true_and]
  exact fun x hx => ⟨x, hx, hrefl x⟩

theorem claim_C7_witness :
    uniqPerKey eqN sampleT.elements ∧
    (((emptySet 8 : HashTable Nat).insertAll hashN eqN sampleT.elements).elements
        = sampleT.elements ∧
     tableEq eqN ((emptySet 8 : HashTable Nat).insertAll hashN eqN sampleT.elements)
        sampleT = true) :=
  ⟨by decide,
   claim_C7_round_trip hashN eqN eqN_refl eqN_symm 8 sampleT (by decide)⟩

theorem succOf_append {A rest : List K} {b : K} (hb : b ∉ A) :
    succOf (A ++ b :: rest) b = rest.head? := by
  unfold succOf
  induction A with
  | nil =>
      simp [List.dropWhile_cons]
  | cons a A2 ih =>
      have hab : a ≠ b := fun h => hb (by simp [h])
      have hb2 : b ∉ A2 := fun h => hb (List.mem_cons_of_mem _ h)
      simp only [List.cons_append, List.dropWhile_cons, decide_eq_true_eq]
      rw [if_pos hab]
      exact ih hb2

theorem eraseRangeAux_correct (B : List K) :
    ∀ (fuel : Nat) (t : HashTable K) (A C : List K),
      B.length ≤ fuel →
      t.elements = A ++ B ++ C →
      t.elements.Nodup →
      HashTable.eraseRangeAux (C.head?) fuel t ((B ++ C).head?)
        = ({ t with elements := A ++ C }, C.head?) := by
  induction B with
  | nil =>
      intro fuel t A C hf he hnd
      have ht : ({ t with elements := A ++ C } : HashTable K) = t := by
        cases t
        simp only [List.append_nil] at he
        simp [he]
      rw [ht]
      cases fuel with
      | zero => rfl
      | succ f => simp [HashTable.eraseRangeAux]
  | cons b B2 ih =>
      intro fuel t A C hf he hnd
      cases fuel with
      | zero => simp at hf
      | succ f =>
          have hnd2 : (A ++ (b :: (B2 ++ C))).Nodup := by
            rw [he, List.append_assoc] at hnd
            simpa using hnd
          have hbA : b ∉ A := by
            have hdisj := List.disjoint_of_nodup_append hnd2
            intro hmem
            exact hdisj hmem (List.mem_cons_self _ _)
          have hne : some b ≠ C.head? := by
            cases C with
            | nil => simp
            | cons c C2 =>
                simp only [List.head?_cons, ne_eq, Option.some.injEq]
                intro hbc
                subst hbc
                have hr : (b :: (B2 ++ b :: C2)).Nodup :=
                  hnd2.of_append_right
                have hbmem : b ∈ B2 ++ b :: C2 := by simp
                rw [List.nodup_cons] at hr
                exact hr.1 hbmem
          have herase : t.elements.erase b = A ++ B2 ++ C := by
            rw [he, List.append_assoc, List.cons_append,
              List.erase_append_right _ (by simpa using hbA),
              List.erase_cons_head, List.append_assoc]
          have hsucc : succOf t.elements b = (B2 ++ C).head? := by
            rw [he, List.append_assoc, List.cons_append]
            exact succOf_append hbA
          show HashTable.eraseRangeAux C.head? (f + 1) t (some b) = _
          unfold HashTable.eraseRangeAux
          rw [if_neg hne]
          simp only [HashTable.remove, hsucc]
          have hrec := ih f ({ t with elements := t.elements.erase b }) A C
            (by simpa using Nat.le_of_succ_le_succ hf)
            (by simpa using herase)
            (by exact hnd.erase b)
          simpa using hrec

/-- Claim C10: the range erase is half-open — for valid iterators `first`
(at the head of `B ++ C` in the global order `A ++ B ++ C`) and `last` (at
the head of `C`), with `first` at or before `last`, `erase(first, last)`
removes exactly the elements of `B` (the element `last` refers to, if any,
remains) and returns an iterator equal to `last`. -/
theorem claim_C10_range_erase_half_open (t : HashTable K) (A B C : List K)
    (he : t.elements = A ++ B ++ C) (hnd : t.elements.Nodup) :
    t.eraseRange ((B ++ C).head?) C.head?
      = ({ t with elements := A ++ C }, C.head?) := by
  unfold HashTable.eraseRange
  refine eraseRangeAux_correct B (t.size + 1) t A C ?_ he hnd
  have hlen : t.size = A.length + B.length + C.length := by
    simp [HashTable.size, he]
    omega
  omega

theorem claim_C10_witness :
    sampleT4.elements = [1] ++ [2, 3] ++ [4] ∧ sampleT4.elements.Nodup ∧
    sampleT4.eraseRange (([2, 3] ++ [4]).head?) ([4] : List Nat).head?
      = ({ sampleT4 with elements := [1] ++ [4] }, ([4] : List Nat).head?) :=
  ⟨rfl, by decide,
   claim_C10_range_erase_half_open sampleT4 [1] [2, 3] [4] rfl (by decide)⟩

theorem length_le_of_cover (eq : K → K → Bool)
    (hrefl : ∀ a, eq a a = true)
    (hsymm : ∀ a b, eq a b = true → eq b a = true)
    (htrans : ∀ a b c, eq a b = true → eq b c = true → eq a c = true)
    {S S2 : List K} (huS : uniqPerKey eq S)
    (hcov : ∀ x ∈ S, ∃ y ∈ S2, eq x y = true) :
    S.length ≤ S2.length := by
  classical
  have hndS : S.Nodup := nodup_of_uniq eq hrefl huS
  have hcard1 : S.toFinset.card = S.length := List.toFinset_card_of_nodup hndS
  have hcard2 : S2.toFinset.card ≤ S2.length := List.toFinset_card_le S2
  rw [← hcard1]
  refine le_trans (Finset.card_le_card_of_injOn
    (fun x => if h : ∃ y, y ∈ S2 ∧ eq x y = true then h.choose else x) ?_ ?_) hcard2
  · intro a ha
    rw [List.mem_toFinset] at ha
    obtain ⟨y, hy, hxy⟩ := hcov a ha
    have hex : ∃ y, y ∈ S2 ∧ eq a y = true := ⟨y, hy, hxy⟩
    simp only [dif_pos hex, List.mem_toFinset]
    exact hex.choose_spec.1
  · intro a1 h1 a2 h2 heq12
    simp only [Finset.coe_sort_coe, Finset.mem_coe, List.mem_toFinset] at h1 h2
    have hex1 : ∃ y, y ∈ S2 ∧ eq a1 y = true := by
      obtain ⟨y, hy, hxy⟩ := hcov a1 h1
      exact ⟨y, hy, hxy⟩
    have hex2 : ∃ y, y ∈ S2 ∧ eq a2 y = true := by
      obtain ⟨y, hy, hxy⟩ := hcov a2 h2
      exact ⟨y, hy, hxy⟩
    simp only [dif_pos hex1, dif_pos hex2] at heq12
    have h1c : eq a1 hex1.choose = true := hex1.choose_spec.2
    have h2c : eq a2 hex2.choose = true := hex2.choose_spec.2
    rw [← heq12] at h2c
    have hc2 : eq hex1.choose a2 = true := hsymm _ _ h2c
    have h12 : eq a1 a2 = true := htrans _ _ _ h1c hc2
    by_contra hne
    have hfa := (List.Pairwise.forall (symm_not_eq eq hsymm) huS) h1 h2 hne
    rw [hfa] at h12
    cases h12

theorem cover_insertAll_of_subset (hash : K → Nat) (eq : K → K → Bool)
    (hrefl : ∀ a, eq a a = true) (m m2 : Nat) {vs vs2 : List K}
    (hsub : vs ⊆ vs2) :
    ∀ x ∈ ((emptySet m : HashTable K).insertAll hash eq vs).elements,
      ∃ y ∈ ((emptySet m2 : HashTable K).insertAll hash eq vs2).elements,
        eq x y = true := by
  intro x hx
  rcases insertAll_elements_subset hash eq vs x hx with h | h
  · simp [emptySet] at h
  · exact exists_match_insertAll hash eq hrefl vs2 x (hsub h)

/-- Claim C8: insertion-order insensitivity of equality — two sets built by
inserting the same collection of values in different orders (any
permutation) compare equal under the engine's `operator==`, even though
their iteration orders may differ; and in general two sets compare equal
iff they have the same size and every element of the left one has an equal
element (per the equality functor) in the right one.  The equality functor
is an equivalence consistent with the hash functor (the documented functor
contract). -/
theorem claim_C8_insertion_order_insensitive (hash : K → Nat) (eq : K → K → Bool)
    (hrefl : ∀ a, eq a a = true)
    (hsymm : ∀ a b, eq a b = true → eq b a = true)
    (htrans : ∀ a b c, eq a b = true → eq b c = true → eq a c = true)
    (hcong : ∀ a b, eq a b = true → hash a = hash b)
    (m m2 : Nat) (vs vs2 : List K) (hperm : vs.Perm vs2) (a b : HashTable K) :
    tableEq eq ((emptySet m : HashTable K).insertAll hash eq vs)
        ((emptySet m2 : HashTable K).insertAll hash eq vs2) = true ∧
    (tableEq eq a b = true ↔
      (a.size = b.size ∧ ∀ x ∈ a.elements, ∃ y ∈ b.elements, eq x y = true)) := by
  constructor
  · have hu1 : uniqPerKey eq ((emptySet m : HashTable K).insertAll hash eq vs).elements :=
      uniq_insertAll hash eq hsymm hcong (by simp [emptySet, uniqPerKey]) vs
    have hu2 : uniqPerKey eq ((emptySet m2 : HashTable K).insertAll hash eq vs2).elements :=
      uniq_insertAll hash eq hsymm hcong (by simp [emptySet, uniqPerKey]) vs2
    have hcov12 := cover_insertAll_of_subset hash eq hrefl m m2 hperm.subset
    have hcov21 := cover_insertAll_of_subset hash eq hrefl m2 m hperm.symm.subset
    have hlen : ((emptySet m : HashTable K).insertAll hash eq vs).elements.length
        = ((emptySet m2 : HashTable K).insertAll hash eq vs2).elements.length :=
      le_antisymm (length_le_of_cover eq hrefl hsymm htrans hu1 hcov12)
        (length_le_of_cover eq hrefl hsymm htrans hu2 hcov21)
    unfold tableEq
    simp only [HashTable.size, Bool.and_eq_true, beq_iff_eq, List.all_eq_true,
      List.any_eq_true]
    exact ⟨hlen, hcov12⟩
  · unfold tableEq
    simp [HashTable.size, List.all_eq_true, List.any_eq_true]

theorem claim_C8_witness :
    ([1, 2, 3] : List Nat).Perm [3, 2, 1] ∧
    (tableEq eqN ((emptySet 4 : HashTable Nat).insertAll hashN eqN [1, 2, 3])
        ((emptySet 4 : HashTable Nat).insertAll hashN eqN [3, 2, 1]) = true ∧
     (tableEq eqN sampleT sampleT4 = true ↔
       (sampleT.size = sampleT4.size ∧
        ∀ x ∈ sampleT.elements, ∃ y ∈ sampleT4.elements, eqN x y = true))) :=
  ⟨by decide,
   claim_C8_insertion_order_insensitive hashN eqN eqN_refl eqN_symm eqN_trans
     eqN_hash_congr 4 4 [1, 2, 3] [3, 2, 1] (by decide) sampleT sampleT4⟩

/-- Claim C9: the hinted insert ignores its hint: `insert(hint, value)`
leaves the table in exactly the state `insert(value)` produces and returns
`insert(value).first`, independently of the hint supplied. -/
theorem claim_C9_hint_is_ignored (hash : K → Nat) (eq : K → K → Bool)
    (t : HashTable K) (hint hint2 : Option K) (v : K) :
    t.insertWithHint hash eq hint v
      = ((t.insertPair hash eq v).1, (t.insertPair hash eq v).2.1) ∧
    t.insertWithHint hash eq hint v = t.insertWithHint hash eq hint2 v :=
  ⟨rfl, rfl⟩

end Bslstl
